import Mathlib

/-!
Verification of the WideTable pipeline (src/Wide_Table.py).

The embedding models Python strings as lists of characters, Python lists as
Lean lists, Python integers as Int, and exceptions as Except values.  Pandas
column slicing (iloc on the column axis) is modelled by Python slice semantics
over the list of columns; the external renderer DataFrame.to_latex is kept
abstract as a function parameter.
-/

namespace WideTable

/-- Python strings are modelled as lists of characters. -/
abbrev PyStr := List Char

/-- Turn a Lean string literal into the Python string model. -/
def pyStr (s : String) : PyStr := s.toList

/-- Python exceptions that the code under verification can raise:
division by zero from divmod with a zero divisor, and an index error from
taking element 0 of an empty list. -/
inductive PyErr where
  | zeroDivisionError
  | indexError
deriving DecidableEq, Repr

/-- Python str.split on a single newline separator. -/
def splitNl : PyStr → List PyStr
  | [] => [[]]
  | c :: rest =>
      if c = '\n' then [] :: splitNl rest
      else (c :: (splitNl rest).headD []) :: (splitNl rest).tail

/-- Python "\n".join of a list of strings. -/
def joinNl : List PyStr → PyStr
  | [] => []
  | [l] => l
  | l :: l2 :: rest => l ++ '\n' :: joinNl (l2 :: rest)

/-- Normalisation of a Python slice endpoint for a sequence of length n:
negative endpoints count from the end, and everything is clamped to [0, n]. -/
def pyIdx (n : Nat) (i : Int) : Nat :=
  if i < 0 then (max ((n : Int) + i) 0).toNat else min i.toNat n

/-- Python slice l[a:b]. -/
def pySlice (l : List α) (a b : Int) : List α :=
  (l.take (pyIdx l.length b)).drop (pyIdx l.length a)

/-- Python slice l[a:] with an open right end. -/
def pySliceFrom (l : List α) (a : Int) : List α :=
  l.drop (pyIdx l.length a)

/-- Python range(n) as a list of integers (empty for non-positive n). -/
def pyRange (n : Int) : List Int :=
  (List.range n.toNat).map Int.ofNat

/-- Effective index used by Python list.insert: negative indices count from the
end, and the result is clamped into [0, n]. -/
def pyInsertIdx (n : Nat) (i : Int) : Nat :=
  ((max 0 (min (if i < 0 then i + n else i) (n : Int)))).toNat

/-- Python list.insert(i, x). -/
def pyInsert (l : List α) (i : Int) (x : α) : List α :=
  (l.take (pyInsertIdx l.length i)) ++ x :: (l.drop (pyInsertIdx l.length i))

/-- Embedding of generate_subtables from src/Wide_Table.py.  A table is its
list of columns (rows play no role in the splitting); no_cols is the Python
int argument.  divmod(cols, no_cols) is floor division and floor modulus,
raising ZeroDivisionError when no_cols is 0; the remainder slice is
table.iloc[:, -remainder:]. -/
def generate_subtables (table : List α) (no_cols : Int) : Except PyErr (List (List α)) :=
  if no_cols = 0 then .error .zeroDivisionError
  else
    let cols : Int := table.length
    let no_subtables := Int.fdiv cols no_cols
    let remainder := Int.fmod cols no_cols
    let end_table := pySliceFrom table (-remainder)
    let subtables := (pyRange no_subtables).map fun x =>
      pySlice table (x * no_cols) (no_cols * (x + 1))
    .ok (subtables ++ [end_table])

/-- Embedding of latex_subtables from src/Wide_Table.py.  The pandas renderer
DataFrame.to_latex is an external collaborator, kept abstract as the function
argument to_latex; latex_subtables maps it over the subtables. -/
def latex_subtables (to_latex : List α → PyStr) (subtables : List (List α)) : List PyStr :=
  subtables.map fun st => to_latex st

/-- Body of the list comprehension in wrap_table: the f-string
"\\begin{container}\n{lt}\\end{container}\n" (with lt the table text). -/
def wrap_one (lt container : PyStr) : PyStr :=
  pyStr "\\begin\x7b" ++ container ++ pyStr "\x7d\n" ++ lt
    ++ pyStr "\\end\x7b" ++ container ++ pyStr "\x7d\n"

/-- Embedding of wrap_table from src/Wide_Table.py. -/
def wrap_table (latex_tables : List PyStr) (container : PyStr) : List PyStr :=
  latex_tables.map fun lt => wrap_one lt container

/-- The container-open directive line produced by wrap_table. -/
def beginDirective (container : PyStr) : PyStr :=
  pyStr "\\begin\x7b" ++ container ++ pyStr "\x7d"

/-- The container-close directive line produced by wrap_table. -/
def endDirective (container : PyStr) : PyStr :=
  pyStr "\\end\x7b" ++ container ++ pyStr "\x7d"

/-- Body of the loop in insert_command: split one table into rows, find the
indices whose row equals the "\\toprule" marker, take index 0 of that list
(raising IndexError when it is empty, as Python does), insert the command at
marker index + row, and rejoin. -/
def insert_one (sub_table command : PyStr) (row : Int) : Except PyErr PyStr :=
  let row_split := splitNl sub_table
  let top_rule := (List.range row_split.length).filter
    fun i => row_split.getD i [] = pyStr "\\toprule"
  match top_rule with
  | [] => .error .indexError
  | t :: _ => .ok (joinNl (pyInsert row_split ((t : Int) + row) command))

/-- Embedding of insert_command from src/Wide_Table.py; a raised exception
aborts the whole loop, as in Python. -/
def insert_command (latex_tables : List PyStr) (command : PyStr) (row : Int) :
    Except PyErr (List PyStr) :=
  match latex_tables with
  | [] => .ok []
  | st :: rest =>
    match insert_one st command row with
    | .error e => .error e
    | .ok st2 =>
      match insert_command rest command row with
      | .error e => .error e
      | .ok rest2 => .ok (st2 :: rest2)

/-- Embedding of combine_subtables from src/Wide_Table.py: prefix every table
with "\\newpage\n" and concatenate. -/
def combine_subtables (latex_tables : List PyStr) : PyStr :=
  ((latex_tables.map fun lt => pyStr "\\newpage\n" ++ lt)).flatten

/-- The midrule loop of wide_table (src/Wide_Table.py lines 123-124): for the
count-th midrule offset mr, insert "\\midrule" at row mr + count. -/
def apply_midrules : List PyStr → List Int → Int → Except PyErr (List PyStr)
  | lts, [], _ => .ok lts
  | lts, mr :: rest, count =>
    match insert_command lts (pyStr "\\midrule") (mr + count) with
    | .error e => .error e
    | .ok lts2 => apply_midrules lts2 rest (count + 1)

/-- The decoration stage of wide_table: the center pass (wrap in a table
container and insert "\\centering" at row 0), then the landscape pass, then
the midrule loop. -/
def decorate_tables (latex_tables : List PyStr) (landscape center : Bool)
    (midrules : List Int) : Except PyErr (List PyStr) :=
  let lt1 := if center then
      insert_command (wrap_table latex_tables (pyStr "table")) (pyStr "\\centering") 0
    else .ok latex_tables
  match lt1 with
  | .error e => .error e
  | .ok lt2 =>
    let lt3 := if landscape then wrap_table lt2 (pyStr "landscape") else lt2
    apply_midrules lt3 midrules 0

/-- Embedding of wide_table from src/Wide_Table.py: partition, render each
partition with the abstract renderer, decorate, and combine.  A midrules value
of none stands for the Python default None, replaced by the empty list. -/
def wide_table (to_latex : List α → PyStr) (table : List α) (no_cols : Int)
    (landscape : Bool := true) (center : Bool := true)
    (midrules : Option (List Int) := none) : Except PyErr PyStr :=
  match generate_subtables table no_cols with
  | .error e => .error e
  | .ok subtables =>
    match decorate_tables (latex_subtables to_latex subtables) landscape center
        (midrules.getD []) with
    | .error e => .error e
    | .ok lts => .ok (combine_subtables lts)

instance {ε α : Type} [DecidableEq ε] [DecidableEq α] : DecidableEq (Except ε α) := fun a b =>
  match a, b with
  | .ok x, .ok y => decidable_of_iff (x = y) (by simp)
  | .error x, .error y => decidable_of_iff (x = y) (by simp)
  | .ok _, .error _ => isFalse (by simp)
  | .error _, .ok _ => isFalse (by simp)

/-! Basic facts about the Python slice-index normalisation. -/

theorem pyIdx_ofNat (n k : Nat) : pyIdx n (k : Int) = min k n := by
  unfold pyIdx
  rw [if_neg (by omega)]
  omega

theorem pyIdx_negOfNat (n r : Nat) (h1 : 0 < r) (h2 : r ≤ n) :
    pyIdx n (-(r : Int)) = n - r := by
  unfold pyIdx
  rw [if_pos (by omega)]
  omega

theorem pyIdx_neg_self (n : Nat) : pyIdx n (-(n : Int)) = 0 := by
  unfold pyIdx
  split <;> omega

theorem pySlice_nat (l : List α) (a b : Nat) (ha : a ≤ l.length) (hb : b ≤ l.length) :
    pySlice l (a : Int) (b : Int) = (l.drop a).take (b - a) := by
  unfold pySlice
  rw [pyIdx_ofNat, pyIdx_ofNat, Nat.min_eq_left ha, Nat.min_eq_left hb, List.drop_take]

theorem pySliceFrom_neg (l : List α) (r : Nat) (h1 : 0 < r) (h2 : r ≤ l.length) :
    pySliceFrom l (-(r : Int)) = l.drop (l.length - r) := by
  unfold pySliceFrom
  rw [pyIdx_negOfNat l.length r h1 h2]

theorem pyRange_ofNat (q : Nat) : pyRange (q : Int) = (List.range q).map Int.ofNat := by
  unfold pyRange
  norm_num

/-! Partitioner claims. -/

/-- Claim C1 (code_bug evidence): with 8 columns and width 4 the remainder is 0,
and the code's slice iloc[:, -0:] degenerates to the whole table, so
generate_subtables returns three partitions, the last being the entire table —
the claim (and the spec) demand exactly two partitions and no full-table
partition. -/
theorem generate_subtables_r_zero_full_table :
    generate_subtables ([0, 1, 2, 3, 4, 5, 6, 7] : List Nat) 4 =
      .ok [[0, 1, 2, 3], [4, 5, 6, 7], [0, 1, 2, 3, 4, 5, 6, 7]] := by
  decide

/-- Claim C2: for 0 < W ≤ C with R = C mod W > 0, generate_subtables returns the
Q = C / W contiguous W-wide column slices in order, followed by the single
remainder partition holding the last R columns, Q + 1 partitions in total. -/
theorem generate_subtables_structure (t : List α) (w : Nat)
    (hw : 0 < w) (hwc : w ≤ t.length) (hr : 0 < t.length % w) :
    generate_subtables t (w : Int) =
      .ok (((List.range (t.length / w)).map fun i => (t.drop (i * w)).take w)
        ++ [t.drop (t.length - t.length % w)])
    ∧ (((List.range (t.length / w)).map fun i => (t.drop (i * w)).take w)
        ++ [t.drop (t.length - t.length % w)]).length = t.length / w + 1 := by
  constructor
  · unfold generate_subtables
    rw [if_neg (by omega)]
    simp only []
    rw [← Int.ofNat_fdiv, ← Int.ofNat_fmod]
    rw [pySliceFrom_neg t (t.length % w) hr (Nat.mod_le _ _)]
    rw [pyRange_ofNat, List.map_map]
    congr 2
    apply List.map_congr_left
    intro i hi
    rw [List.mem_range] at hi
    have hiw : (i + 1) * w ≤ t.length := by
      calc (i + 1) * w ≤ t.length / w * w := Nat.mul_le_mul_right w hi
      _ ≤ t.length := Nat.div_mul_le_self _ _
    have h1 : i * w ≤ t.length := by
      calc i * w ≤ (i + 1) * w := Nat.mul_le_mul_right w (Nat.le_succ i)
      _ ≤ t.length := hiw
    have hcast : pySlice t ((Int.ofNat i) * (w : Int)) ((w : Int) * ((Int.ofNat i) + 1))
        = pySlice t ((i * w : Nat) : Int) ((w * (i + 1) : Nat) : Int) := by
      norm_num [Int.ofNat_eq_natCast]
    rw [Function.comp_apply, hcast,
      pySlice_nat t (i * w) (w * (i + 1)) h1 (by rw [Nat.mul_comm] at hiw; exact hiw)]
    congr 1
    rw [Nat.mul_succ, Nat.mul_comm i w]
    omega
  · simp

/-- Witness for claim C2 at a 5-column table with width 2. -/
theorem generate_subtables_structure_witness :
    generate_subtables ([0, 1, 2, 3, 4] : List Nat) ((2 : Nat) : Int) =
      .ok (((List.range ([0, 1, 2, 3, 4].length / 2)).map
            fun i => (([0, 1, 2, 3, 4] : List Nat).drop (i * 2)).take 2)
        ++ [([0, 1, 2, 3, 4] : List Nat).drop
            ([0, 1, 2, 3, 4].length - [0, 1, 2, 3, 4].length % 2)])
    ∧ ((((List.range ([0, 1, 2, 3, 4].length / 2)).map
            fun i => (([0, 1, 2, 3, 4] : List Nat).drop (i * 2)).take 2)
        ++ [([0, 1, 2, 3, 4] : List Nat).drop
            ([0, 1, 2, 3, 4].length - [0, 1, 2, 3, 4].length % 2)]).length)
      = [0, 1, 2, 3, 4].length / 2 + 1 := by
  exact generate_subtables_structure [0, 1, 2, 3, 4] 2 (by decide) (by decide) (by decide)

/-- Claim C3 (counterexample): with width -1 the code does not fail at all; it
returns a partition list, so a non-positive width does not produce the
InvalidArgument failure the claim demands. -/
theorem generate_subtables_negative_width_returns :
    generate_subtables ([0, 1] : List Nat) (-1) = .ok [[0, 1]] := by
  decide

/-- Claim C3 (amended): the code performs no width validation.  Width 0 fails
with the Python division-by-zero error from divmod (the only failure, standing
in for the spec's InvalidArgument), while a negative width does not fail: the
partitioner returns a partition list. -/
theorem generate_subtables_width_errors (t : List α) (w : Int) :
    (w = 0 → generate_subtables t w = .error PyErr.zeroDivisionError)
    ∧ (w ≠ 0 → ∃ ps, generate_subtables t w = .ok ps) := by
  constructor
  · intro h
    subst h
    unfold generate_subtables
    rw [if_pos rfl]
  · intro h
    unfold generate_subtables
    rw [if_neg h]
    exact ⟨_, rfl⟩

/-- Witness for the amended claim C3: width 0 raises the division error on a
2-column table, width -1 returns a list. -/
theorem generate_subtables_width_errors_witness :
    generate_subtables ([0, 1] : List Nat) 0 = .error PyErr.zeroDivisionError
    ∧ ∃ ps, generate_subtables ([0, 1] : List Nat) (-1) = .ok ps :=
  ⟨(generate_subtables_width_errors [0, 1] 0).1 rfl,
   (generate_subtables_width_errors [0, 1] (-1)).2 (by decide)⟩

/-- Claim C7: when the width exceeds the column count, there are no full
partitions and the single remainder partition is the whole table. -/
theorem generate_subtables_wide_width (t : List α) (w : Nat) (h : t.length < w) :
    generate_subtables t (w : Int) = .ok [t] := by
  unfold generate_subtables
  rw [if_neg (by omega)]
  simp only []
  rw [← Int.ofNat_fdiv, ← Int.ofNat_fmod,
    Nat.div_eq_of_lt h, Nat.mod_eq_of_lt h, pyRange_ofNat]
  simp only [List.range_zero, List.map_nil, List.nil_append]
  unfold pySliceFrom
  rw [pyIdx_neg_self]
  rfl

/-- Witness for claim C7 at a 1-column table with width 2. -/
theorem generate_subtables_wide_width_witness :
    generate_subtables ([0] : List Nat) ((2 : Nat) : Int) = .ok [[0]] := by
  exact generate_subtables_wide_width [0] 2 (by decide)

/-! Facts about splitting and joining on newlines. -/

theorem splitNl_nil : splitNl [] = [[]] := rfl

theorem splitNl_newline_cons (s : PyStr) : splitNl ('\n' :: s) = [] :: splitNl s := by
  simp [splitNl]

theorem splitNl_cons_of_ne (c : Char) (s : PyStr) (h : ¬ c = '\n') :
    splitNl (c :: s) = (c :: (splitNl s).headD []) :: (splitNl s).tail := by
  simp [splitNl, h]

theorem splitNl_ne_nil (s : PyStr) : splitNl s ≠ [] := by
  cases s with
  | nil => simp [splitNl]
  | cons c rest =>
    simp only [splitNl]
    split <;> simp

theorem splitNl_append (x : PyStr) (L : List PyStr) (p q : PyStr) (M : List PyStr) (y : PyStr)
    (hx : splitNl x = L ++ [p]) (hy : splitNl y = q :: M) :
    splitNl (x ++ y) = L ++ (p ++ q) :: M := by
  induction x generalizing L p with
  | nil =>
    rw [splitNl_nil] at hx
    cases L with
    | nil =>
      simp only [List.nil_append, List.cons.injEq, and_true] at hx
      subst hx
      simpa using hy
    | cons a L2 =>
      simp only [List.cons_append, List.cons.injEq] at hx
      exact absurd hx.2.symm (List.append_ne_nil_of_right_ne_nil L2 (by simp))
  | cons c rest ih =>
    by_cases hc : c = '\n'
    · subst hc
      rw [splitNl_newline_cons] at hx
      cases L with
      | nil =>
        simp only [List.nil_append, List.cons.injEq] at hx
        exact absurd hx.2 (splitNl_ne_nil rest)
      | cons a L2 =>
        simp only [List.cons_append, List.cons.injEq] at hx
        obtain ⟨ha, hrest⟩ := hx
        subst ha
        rw [List.cons_append, splitNl_newline_cons, ih L2 p hrest, List.cons_append]
    · rw [splitNl_cons_of_ne c rest hc] at hx
      obtain ⟨s0, S1, hS⟩ := List.exists_cons_of_ne_nil (splitNl_ne_nil rest)
      rw [hS] at hx
      simp only [List.headD_cons, List.tail_cons] at hx
      cases L with
      | nil =>
        simp only [List.nil_append, List.cons.injEq] at hx
        obtain ⟨hp, hS1⟩ := hx
        subst hS1
        have hrec := ih ([] : List PyStr) s0 (by rw [hS]; rfl)
        rw [List.cons_append, splitNl_cons_of_ne c (rest ++ y) hc, hrec]
        simp [← hp]
      | cons a L2 =>
        simp only [List.cons_append, List.cons.injEq] at hx
        obtain ⟨ha, hS1⟩ := hx
        have hrec := ih (s0 :: L2) p (by rw [hS, hS1]; rfl)
        rw [List.cons_append, splitNl_cons_of_ne c (rest ++ y) hc, hrec]
        simp [← ha]

theorem splitNl_line_append (x y : PyStr) (hx : '\n' ∉ x) :
    splitNl (x ++ '\n' :: y) = x :: splitNl y := by
  induction x with
  | nil => exact splitNl_newline_cons y
  | cons c x2 ih =>
    have hc : ¬ c = '\n' := fun h => hx (h ▸ List.mem_cons_self c x2)
    rw [List.cons_append, splitNl_cons_of_ne c (x2 ++ '\n' :: y) hc,
      ih (fun h => hx (List.mem_cons_of_mem c h))]
    rfl

theorem splitNl_no_newline (x : PyStr) (hx : '\n' ∉ x) : splitNl x = [x] := by
  induction x with
  | nil => rfl
  | cons c x2 ih =>
    have hc : ¬ c = '\n' := fun h => hx (h ▸ List.mem_cons_self c x2)
    rw [splitNl_cons_of_ne c x2 hc, ih (fun h => hx (List.mem_cons_of_mem c h))]
    rfl

theorem splitNl_pieces (s : PyStr) : ∀ p ∈ splitNl s, '\n' ∉ p := by
  induction s with
  | nil =>
    intro p hp
    rw [splitNl_nil, List.mem_singleton] at hp
    subst hp
    exact List.not_mem_nil '\n'
  | cons c rest ih =>
    by_cases hc : c = '\n'
    · subst hc
      rw [splitNl_newline_cons]
      intro p hp
      rcases List.mem_cons.mp hp with h | h
      · subst h; exact List.not_mem_nil '\n'
      · exact ih p h
    · rw [splitNl_cons_of_ne c rest hc]
      obtain ⟨s0, S1, hS⟩ := List.exists_cons_of_ne_nil (splitNl_ne_nil rest)
      rw [hS]
      intro p hp
      rcases List.mem_cons.mp hp with h | h
      · subst h
        simp only [List.headD_cons]
        intro hmem
        rcases List.mem_cons.mp hmem with h2 | h2
        · exact hc h2.symm
        · exact ih s0 (hS ▸ List.mem_cons_self s0 S1) h2
      · exact ih p (hS ▸ List.mem_cons_of_mem s0 h)

theorem joinNl_cons (x : PyStr) (L : List PyStr) (hL : L ≠ []) :
    joinNl (x :: L) = x ++ '\n' :: joinNl L := by
  cases L with
  | nil => exact absurd rfl hL
  | cons y L2 => rfl

theorem splitNl_joinNl (L : List PyStr) (hL : L ≠ []) (hp : ∀ p ∈ L, '\n' ∉ p) :
    splitNl (joinNl L) = L := by
  induction L with
  | nil => exact absurd rfl hL
  | cons x L2 ih =>
    cases L2 with
    | nil => exact splitNl_no_newline x (hp x (List.mem_cons_self x []))
    | cons y L3 =>
      rw [joinNl_cons x (y :: L3) (by simp),
        splitNl_line_append _ _ (hp x (List.mem_cons_self x (y :: L3))),
        ih (by simp) (fun p hmem => hp p (List.mem_cons_of_mem x hmem))]

/-! Locating the top-rule marker and the behaviour of Python list.insert. -/

theorem top_rule_filter_nil (l : List PyStr) (v : PyStr) (hv : v ∉ l) :
    (List.range l.length).filter (fun i => decide (l.getD i [] = v)) = [] := by
  rw [List.filter_eq_nil_iff]
  intro i hi
  rw [List.mem_range] at hi
  simp only [decide_eq_true_eq]
  intro h
  rw [List.getD_eq_getElem l [] hi] at h
  exact hv (h ▸ List.getElem_mem hi)

theorem top_rule_filter (pre post : List PyStr) (v : PyStr) (hpre : v ∉ pre) :
    ∃ T, (List.range (pre ++ v :: post).length).filter
      (fun i => decide ((pre ++ v :: post).getD i [] = v)) = pre.length :: T := by
  induction pre with
  | nil =>
    rw [List.nil_append, List.length_cons, List.range_succ_eq_map, List.filter_cons]
    rw [if_pos (by simp)]
    exact ⟨_, rfl⟩
  | cons a pre2 ih =>
    have ha : ¬ (a = v) := fun h => hpre (h ▸ List.mem_cons_self a pre2)
    rw [List.cons_append, List.length_cons, List.range_succ_eq_map, List.filter_cons]
    rw [if_neg (by simp [ha]), List.filter_map]
    have hsimp : ((fun i => decide ((a :: (pre2 ++ v :: post)).getD i [] = v)) ∘ Nat.succ)
        = fun i => decide ((pre2 ++ v :: post).getD i [] = v) := by
      funext i
      simp [Function.comp, List.getD_cons_succ]
    rw [hsimp]
    obtain ⟨T, hT⟩ := ih (fun h => hpre (List.mem_cons_of_mem a h))
    rw [hT]
    exact ⟨_, rfl⟩

theorem pyInsertIdx_at_length (l1 l2 : List α) :
    pyInsertIdx (l1 ++ l2).length (l1.length : Int) = l1.length := by
  unfold pyInsertIdx
  rw [if_neg (by omega)]
  simp only [List.length_append]
  omega

theorem pyInsert_at_length (l1 l2 : List α) (x : α) :
    pyInsert (l1 ++ l2) (l1.length : Int) x = l1 ++ x :: l2 := by
  unfold pyInsert
  rw [pyInsertIdx_at_length, List.take_left, List.drop_left]

theorem insert_one_ok (block cmd : PyStr) (row : Int) (pre post : List PyStr)
    (hb : splitNl block = pre ++ pyStr "\\toprule" :: post)
    (hpre : pyStr "\\toprule" ∉ pre) :
    insert_one block cmd row =
      .ok (joinNl (pyInsert (pre ++ pyStr "\\toprule" :: post)
        ((pre.length : Int) + row) cmd)) := by
  unfold insert_one
  simp only []
  rw [hb]
  obtain ⟨T, hT⟩ := top_rule_filter pre post (pyStr "\\toprule") hpre
  rw [hT]

theorem insert_one_err (block cmd : PyStr) (row : Int)
    (hb : pyStr "\\toprule" ∉ splitNl block) :
    insert_one block cmd row = .error PyErr.indexError := by
  unfold insert_one
  simp only []
  rw [top_rule_filter_nil (splitNl block) (pyStr "\\toprule") hb]

theorem insert_one_error_name (block cmd : PyStr) (row : Int) (e : PyErr)
    (h : insert_one block cmd row = .error e) : e = PyErr.indexError := by
  unfold insert_one at h
  simp only [] at h
  split at h
  · injection h with h2
    exact h2.symm
  · simp at h

theorem insert_command_cons (st : PyStr) (rest : List PyStr) (cmd : PyStr) (row : Int) :
    insert_command (st :: rest) cmd row =
      match insert_one st cmd row with
      | .error e => .error e
      | .ok st2 =>
        match insert_command rest cmd row with
        | .error e => .error e
        | .ok rest2 => .ok (st2 :: rest2) := rfl

/-- Claim C4: when some block contains no line equal to the top-rule marker,
insert_command fails with the missing-marker error — the IndexError raised by
top_rule[0], which is the code's realisation of the spec's MalformedMarkup and
the only error insert_command can produce — rather than returning a result or
failing with any other error. -/
theorem insert_command_no_marker (lts : List PyStr) (cmd : PyStr) (row : Int)
    (b : PyStr) (hmem : b ∈ lts) (hb : pyStr "\\toprule" ∉ splitNl b) :
    insert_command lts cmd row = .error PyErr.indexError := by
  induction lts with
  | nil => cases hmem
  | cons st rest ih =>
    rcases List.mem_cons.mp hmem with h | h
    · subst h
      rw [insert_command_cons, insert_one_err b cmd row hb]
    · rw [insert_command_cons]
      cases hst : insert_one st cmd row with
      | error e => rw [insert_one_error_name st cmd row e hst]
      | ok st2 => rw [ih h]

/-- Witness for claim C4: a single block with no marker line. -/
theorem insert_command_no_marker_witness :
    insert_command [pyStr "hello"] (pyStr "\\centering") 0 = .error PyErr.indexError := by
  exact insert_command_no_marker [pyStr "hello"] (pyStr "\\centering") 0
    (pyStr "hello") (by decide) (by decide)

/-- Claim C6: inserting a command at offset 0 into a block whose line sequence
is pre ++ marker :: post (with the marker's first occurrence after pre) yields
the block whose lines are pre ++ command :: marker :: post: the command sits
immediately before the first marker line and every other line is unchanged. -/
theorem insert_command_offset_zero (block cmd : PyStr) (pre post : List PyStr)
    (hb : splitNl block = pre ++ pyStr "\\toprule" :: post)
    (hpre : pyStr "\\toprule" ∉ pre) (hcmd : '\n' ∉ cmd) :
    insert_command [block] cmd 0 = .ok [joinNl (pre ++ cmd :: pyStr "\\toprule" :: post)]
    ∧ splitNl (joinNl (pre ++ cmd :: pyStr "\\toprule" :: post)) =
        pre ++ cmd :: pyStr "\\toprule" :: post := by
  have h1 : insert_one block cmd 0 = .ok (joinNl (pre ++ cmd :: pyStr "\\toprule" :: post)) := by
    rw [insert_one_ok block cmd 0 pre post hb hpre, add_zero,
      pyInsert_at_length pre (pyStr "\\toprule" :: post) cmd]
  constructor
  · rw [insert_command_cons, h1]
    rfl
  · apply splitNl_joinNl
    · simp
    · intro p hp
      rcases List.mem_append.mp hp with h | h
      · exact splitNl_pieces block p (by rw [hb]; exact List.mem_append_left _ h)
      · rcases List.mem_cons.mp h with h2 | h2
        · subst h2
          exact hcmd
        · exact splitNl_pieces block p (by rw [hb]; exact List.mem_append_right _ h2)

/-- Witness for claim C6 on the block with lines A, marker, B. -/
theorem insert_command_offset_zero_witness :
    insert_command [pyStr "A\n\\toprule\nB"] (pyStr "\\centering") 0 =
      .ok [joinNl ([pyStr "A"] ++ pyStr "\\centering" :: pyStr "\\toprule" :: [pyStr "B"])]
    ∧ splitNl (joinNl ([pyStr "A"] ++ pyStr "\\centering" :: pyStr "\\toprule" :: [pyStr "B"])) =
        [pyStr "A"] ++ pyStr "\\centering" :: pyStr "\\toprule" :: [pyStr "B"] := by
  exact insert_command_offset_zero (pyStr "A\n\\toprule\nB") (pyStr "\\centering")
    [pyStr "A"] [pyStr "B"] (by decide) (by decide) (by decide)

/-! The midrule loop. -/

theorem apply_midrules_nil (lts : List PyStr) (count : Int) :
    apply_midrules lts [] count = .ok lts := rfl

theorem apply_midrules_cons (lts : List PyStr) (mr : Int) (rest : List Int) (count : Int) :
    apply_midrules lts (mr :: rest) count =
      match insert_command lts (pyStr "\\midrule") (mr + count) with
      | .error e => .error e
      | .ok lts2 => apply_midrules lts2 rest (count + 1) := rfl

theorem apply_midrules_step (lts lts2 : List PyStr) (mr : Int) (rest : List Int) (count : Int)
    (h : insert_command lts (pyStr "\\midrule") (mr + count) = .ok lts2) :
    apply_midrules lts (mr :: rest) count = apply_midrules lts2 rest (count + 1) := by
  rw [apply_midrules_cons, h]

theorem insert_command_singleton (b cmd : PyStr) (row : Int) (x : PyStr)
    (h : insert_one b cmd row = .ok x) : insert_command [b] cmd row = .ok [x] := by
  rw [insert_command_cons, h]
  rfl

theorem pyInsert_at_mid (l1 l2 : List α) (x : α) (i : Int) (hi : i = (l1.length : Int)) :
    pyInsert (l1 ++ l2) i x = l1 ++ x :: l2 := by
  rw [hi]
  exact pyInsert_at_length l1 l2 x

/-- Claim C5 (counterexample): on the block whose only line is the marker, the
two midrule insertions at offsets [2,2] land at marker-relative positions 1
and 2 (Python list.insert clamps an out-of-range index to the end), not at the
positions 2 and 3 that the claim asserts for every block with a marker. -/
theorem apply_midrules_short_block :
    apply_midrules [pyStr "\\toprule"] [2, 2] 0 =
      .ok [pyStr "\\toprule\n\\midrule\n\\midrule"]
    ∧ splitNl (pyStr "\\toprule\n\\midrule\n\\midrule") =
        [pyStr "\\toprule", pyStr "\\midrule", pyStr "\\midrule"]
    ∧ ¬ ((splitNl (pyStr "\\toprule\n\\midrule\n\\midrule")).getD 2 [] = pyStr "\\midrule"
        ∧ (splitNl (pyStr "\\toprule\n\\midrule\n\\midrule")).getD 3 [] = pyStr "\\midrule") := by
  refine ⟨by decide, by decide, by decide⟩

/-- Claim C5 (amended): for every block whose line sequence is
pre ++ marker :: a :: post — the marker's first occurrence followed by at
least one line — inserting midrules at cumulative offsets [2,2] (the k-th at
marker index + 2 + k) puts the two directive lines at marker-relative
positions 2 and 3, not both at position 2. -/
theorem apply_midrules_two_two (block a : PyStr) (pre post : List PyStr)
    (hb : splitNl block = pre ++ pyStr "\\toprule" :: a :: post)
    (hpre : pyStr "\\toprule" ∉ pre) :
    apply_midrules [block] [2, 2] 0 =
      .ok [joinNl (pre ++ pyStr "\\toprule" :: a ::
        pyStr "\\midrule" :: pyStr "\\midrule" :: post)] := by
  have hpieces : ∀ p ∈ pre ++ pyStr "\\toprule" :: a :: pyStr "\\midrule" :: post,
      '\n' ∉ p := by
    intro p hp
    rcases List.mem_append.mp hp with h | h
    · exact splitNl_pieces block p (by rw [hb]; exact List.mem_append_left _ h)
    · rcases List.mem_cons.mp h with h2 | h2
      · subst h2
        decide
      · rcases List.mem_cons.mp h2 with h3 | h3
        · subst h3
          exact splitNl_pieces block p (by rw [hb]; exact List.mem_append_right _ (by simp))
        · rcases List.mem_cons.mp h3 with h4 | h4
          · subst h4
            decide
          · exact splitNl_pieces block p
              (by rw [hb]; exact List.mem_append_right _ (by simp [h4]))
  have h1 : insert_one block (pyStr "\\midrule") (2 + 0) =
      .ok (joinNl (pre ++ pyStr "\\toprule" :: a :: pyStr "\\midrule" :: post)) := by
    rw [insert_one_ok block (pyStr "\\midrule") (2 + 0) pre (a :: post) hb hpre]
    congr 1
    have hassoc : pre ++ pyStr "\\toprule" :: a :: post
        = (pre ++ [pyStr "\\toprule", a]) ++ post := by simp
    rw [hassoc, pyInsert_at_mid (pre ++ [pyStr "\\toprule", a]) post (pyStr "\\midrule")
      ((pre.length : Int) + (2 + 0))
      (by simp only [List.length_append, List.length_cons, List.length_nil]; omega)]
    simp
  have hs1 : splitNl (joinNl (pre ++ pyStr "\\toprule" :: a :: pyStr "\\midrule" :: post))
      = pre ++ pyStr "\\toprule" :: a :: pyStr "\\midrule" :: post :=
    splitNl_joinNl _ (by simp) hpieces
  have h2 : insert_one (joinNl (pre ++ pyStr "\\toprule" :: a :: pyStr "\\midrule" :: post))
      (pyStr "\\midrule") (2 + (0 + 1)) =
      .ok (joinNl (pre ++ pyStr "\\toprule" :: a ::
        pyStr "\\midrule" :: pyStr "\\midrule" :: post)) := by
    rw [insert_one_ok _ (pyStr "\\midrule") (2 + (0 + 1)) pre
      (a :: pyStr "\\midrule" :: post) hs1 hpre]
    congr 1
    have hassoc : pre ++ pyStr "\\toprule" :: a :: pyStr "\\midrule" :: post
        = (pre ++ [pyStr "\\toprule", a, pyStr "\\midrule"]) ++ post := by simp
    rw [hassoc, pyInsert_at_mid (pre ++ [pyStr "\\toprule", a, pyStr "\\midrule"]) post
      (pyStr "\\midrule") ((pre.length : Int) + (2 + (0 + 1)))
      (by simp only [List.length_append, List.length_cons, List.length_nil]; omega)]
    simp
  rw [apply_midrules_step [block] _ 2 [2] 0 (insert_command_singleton _ _ _ _ h1),
    apply_midrules_step _ _ 2 [] (0 + 1) (insert_command_singleton _ _ _ _ h2),
    apply_midrules_nil]

/-- Witness for the amended claim C5 on the block with lines marker, X. -/
theorem apply_midrules_two_two_witness :
    apply_midrules [pyStr "\\toprule\nX"] [2, 2] 0 =
      .ok [joinNl (([] : List PyStr) ++ pyStr "\\toprule" :: pyStr "X" ::
        pyStr "\\midrule" :: pyStr "\\midrule" :: ([] : List PyStr))] := by
  exact apply_midrules_two_two (pyStr "\\toprule\nX") (pyStr "X") [] []
    (by decide) (by decide)

/-! The container wrap. -/

theorem wrap_one_eq (b c : PyStr) :
    wrap_one b c = beginDirective c ++ '\n' :: (b ++ (endDirective c ++ ['\n'])) := by
  unfold wrap_one beginDirective endDirective
  simp [pyStr]

theorem no_newline_beginDirective (c : PyStr) (hc : '\n' ∉ c) :
    '\n' ∉ beginDirective c := by
  unfold beginDirective
  intro h
  rcases List.mem_append.mp h with h1 | h1
  · rcases List.mem_append.mp h1 with h2 | h2
    · exact absurd h2 (by decide)
    · exact hc h2
  · exact absurd h1 (by decide)

theorem no_newline_endDirective (c : PyStr) (hc : '\n' ∉ c) :
    '\n' ∉ endDirective c := by
  unfold endDirective
  intro h
  rcases List.mem_append.mp h with h1 | h1
  · rcases List.mem_append.mp h1 with h2 | h2
    · exact absurd h2 (by decide)
    · exact hc h2
  · exact absurd h1 (by decide)

theorem splitNl_wrap_one (b c : PyStr) (hc : '\n' ∉ c) (L : List PyStr) (p : PyStr)
    (hb : splitNl b = L ++ [p]) :
    splitNl (wrap_one b c) = beginDirective c :: (L ++ [p ++ endDirective c, []]) := by
  rw [wrap_one_eq,
    splitNl_line_append (beginDirective c) _ (no_newline_beginDirective c hc)]
  have hy : splitNl (endDirective c ++ ['\n']) = endDirective c :: splitNl [] := by
    have : endDirective c ++ ['\n'] = endDirective c ++ '\n' :: [] := rfl
    rw [this, splitNl_line_append (endDirective c) [] (no_newline_endDirective c hc)]
  rw [splitNl_nil] at hy
  rw [splitNl_append b L p (endDirective c) [[]] (endDirective c ++ ['\n']) hb hy]

theorem splitNl_last_piece (b : PyStr) :
    ∃ L p, splitNl b = L ++ [p] ∧ (p = [] ↔ (b = [] ∨ b.getLast? = some '\n')) := by
  induction b using List.reverseRecOn with
  | nil => exact ⟨[], [], rfl, by simp⟩
  | append_singleton b2 c ih =>
    obtain ⟨L, p, hsp, hiff⟩ := ih
    by_cases hc : c = '\n'
    · subst hc
      refine ⟨L ++ [p], [], ?_, ?_⟩
      · rw [splitNl_append b2 L p [] [[]] ['\n'] hsp (by decide)]
        simp
      · simp
    · refine ⟨L, p ++ [c], ?_, ?_⟩
      · rw [splitNl_append b2 L p [c] [] [c] hsp (splitNl_no_newline [c]
          (by intro h; rw [List.mem_singleton] at h; exact hc h.symm))]
      · constructor
        · intro h
          exact absurd h (by simp)
        · intro h
          rcases h with h | h
          · exact absurd h (by simp)
          · rw [List.getLast?_concat] at h
            injection h with h2
            exact absurd h2 hc

/-- Claim C10 (counterexample): on the empty block, which does not end with a
newline, the container-close directive nevertheless occupies a line of its
own in the wrapped result. -/
theorem wrap_table_empty_block :
    wrap_table [pyStr ""] (pyStr "table") = [wrap_one (pyStr "") (pyStr "table")]
    ∧ (pyStr "").getLast? ≠ some '\n'
    ∧ endDirective (pyStr "table") ∈ splitNl (wrap_one (pyStr "") (pyStr "table")) := by
  refine ⟨rfl, by decide, by decide⟩

/-- Claim C10 (amended): for every nonempty block b and newline-free container
name, the lines of the wrapped block are the open directive on its own line,
then the lines of b with the close directive appended to b's final line, then
an empty trailing line; the final line of b is empty exactly when b ends with
a newline, so the close directive stands on a line of its own precisely in
that case, while for a nonempty block not ending in a newline it is glued to
the block's nonempty last line. -/
theorem wrap_one_close_line (b c : PyStr) (hb : b ≠ []) (hc : '\n' ∉ c) :
    ∃ L p, splitNl b = L ++ [p]
      ∧ splitNl (wrap_one b c) = beginDirective c :: (L ++ [p ++ endDirective c, []])
      ∧ (b.getLast? = some '\n' ↔ p = []) := by
  obtain ⟨L, p, hsp, hiff⟩ := splitNl_last_piece b
  refine ⟨L, p, hsp, splitNl_wrap_one b c hc L p hsp, ?_⟩
  rw [hiff]
  simp [hb]

/-- Witness for the amended claim C10 on the one-character block x. -/
theorem wrap_one_close_line_witness :
    ∃ L p, splitNl (pyStr "x") = L ++ [p]
      ∧ splitNl (wrap_one (pyStr "x") (pyStr "table")) =
          beginDirective (pyStr "table") :: (L ++ [p ++ endDirective (pyStr "table"), []])
      ∧ ((pyStr "x").getLast? = some '\n' ↔ p = []) := by
  exact wrap_one_close_line (pyStr "x") (pyStr "table") (by decide) (by decide)

/-! The orchestrator. -/

theorem wide_table_eq (to_latex : List α → PyStr) (t : List α) (W : Int)
    (sts : List (List α)) (lts : List PyStr) (landscape center : Bool)
    (midrules : Option (List Int))
    (hg : generate_subtables t W = .ok sts)
    (hd : decorate_tables (latex_subtables to_latex sts) landscape center
      (midrules.getD []) = .ok lts) :
    wide_table to_latex t W landscape center midrules = .ok (combine_subtables lts) := by
  unfold wide_table
  rw [hg]
  show (match decorate_tables (latex_subtables to_latex sts) landscape center
      (midrules.getD []) with
    | .error e => (.error e : Except PyErr PyStr)
    | .ok lts2 => .ok (combine_subtables lts2)) = .ok (combine_subtables lts)
  rw [hd]

/-- Claim C9: with center and landscape disabled and no midrules, the
orchestrator returns exactly the concatenation of the raw rendered blocks,
each prefixed with the page-break directive line "\\newpage\n" and nothing
else: no separator, no container wrapping. -/
theorem wide_table_no_decoration (to_latex : List α → PyStr) (t : List α) (W : Int)
    (hW : W ≠ 0) :
    ∃ sts, generate_subtables t W = .ok sts
      ∧ wide_table to_latex t W false false none =
          .ok (((latex_subtables to_latex sts).map
            fun b => pyStr "\\newpage\n" ++ b).flatten) := by
  obtain ⟨sts, hg⟩ : ∃ sts, generate_subtables t W = .ok sts := by
    unfold generate_subtables
    rw [if_neg hW]
    exact ⟨_, rfl⟩
  refine ⟨sts, hg, ?_⟩
  have hd : decorate_tables (latex_subtables to_latex sts) false false
      ((none : Option (List Int)).getD []) = .ok (latex_subtables to_latex sts) := rfl
  rw [wide_table_eq to_latex t W sts (latex_subtables to_latex sts) false false none hg hd]
  rfl

/-- Witness for claim C9 on a 2-column table with width 1 and a constant
renderer. -/
theorem wide_table_no_decoration_witness :
    ∃ sts, generate_subtables ([0, 1] : List Nat) 1 = .ok sts
      ∧ wide_table (fun _ => pyStr "R\n") [0, 1] 1 false false none =
          .ok (((latex_subtables (fun _ => pyStr "R\n") sts).map
            fun b => pyStr "\\newpage\n" ++ b).flatten) := by
  exact wide_table_no_decoration (fun _ => pyStr "R\n") [0, 1] 1 (by decide)

theorem mem_first_split (v : α) (l : List α) (h : v ∈ l) :
    ∃ pre post, l = pre ++ v :: post ∧ v ∉ pre := by
  induction l with
  | nil => cases h
  | cons a l2 ih =>
    by_cases hav : a = v
    · exact ⟨[], l2, by rw [hav]; rfl, List.not_mem_nil v⟩
    · rcases List.mem_cons.mp h with h2 | h2
      · exact absurd h2.symm hav
      · obtain ⟨pre, post, heq, hnot⟩ := ih h2
        refine ⟨a :: pre, post, by rw [List.cons_append, heq], ?_⟩
        intro hmem
        rcases List.mem_cons.mp hmem with h3 | h3
        · exact hav h3.symm
        · exact hnot h3

theorem center_one (b : PyStr) (hm : pyStr "\\toprule" ∈ (splitNl b).dropLast) :
    ∃ tail, insert_one (wrap_one b (pyStr "table")) (pyStr "\\centering") 0 =
      .ok (joinNl (beginDirective (pyStr "table") :: tail)) ∧ tail ≠ [] := by
  have hne := splitNl_ne_nil b
  have hDp : splitNl b = (splitNl b).dropLast ++ [(splitNl b).getLast hne] :=
    (List.dropLast_append_getLast hne).symm
  obtain ⟨pre, post0, hD, hpre⟩ := mem_first_split (pyStr "\\toprule") _ hm
  have hw := splitNl_wrap_one b (pyStr "table") (by decide)
    ((splitNl b).dropLast) ((splitNl b).getLast hne) hDp
  have hw2 : splitNl (wrap_one b (pyStr "table")) =
      (beginDirective (pyStr "table") :: pre) ++ pyStr "\\toprule" ::
        (post0 ++ [(splitNl b).getLast hne ++ endDirective (pyStr "table"), []]) := by
    rw [hw, hD]
    simp
  have hpre2 : pyStr "\\toprule" ∉ beginDirective (pyStr "table") :: pre := by
    intro hmem
    rcases List.mem_cons.mp hmem with h | h
    · exact absurd h (by decide)
    · exact hpre h
  have h1 := insert_one_ok (wrap_one b (pyStr "table")) (pyStr "\\centering") 0
    (beginDirective (pyStr "table") :: pre) _ hw2 hpre2
  rw [add_zero, pyInsert_at_length] at h1
  refine ⟨pre ++ pyStr "\\centering" :: pyStr "\\toprule" ::
    (post0 ++ [(splitNl b).getLast hne ++ endDirective (pyStr "table"), []]), ?_, by simp⟩
  rw [h1]
  rfl

theorem insert_command_wrap_center (lts : List PyStr)
    (hm : ∀ b ∈ lts, pyStr "\\toprule" ∈ (splitNl b).dropLast) :
    ∃ out, insert_command (wrap_table lts (pyStr "table")) (pyStr "\\centering") 0 = .ok out
      ∧ ∀ s ∈ out, ∃ tail,
          s = joinNl (beginDirective (pyStr "table") :: tail) ∧ tail ≠ [] := by
  induction lts with
  | nil => exact ⟨[], rfl, by simp⟩
  | cons b rest ih =>
    obtain ⟨out2, hout2, hprop⟩ := ih (fun x hx => hm x (List.mem_cons_of_mem b hx))
    obtain ⟨tail, h1, htail⟩ := center_one b (hm b (List.mem_cons_self b rest))
    refine ⟨joinNl (beginDirective (pyStr "table") :: tail) :: out2, ?_, ?_⟩
    · have hwc : wrap_table (b :: rest) (pyStr "table")
          = wrap_one b (pyStr "table") :: wrap_table rest (pyStr "table") := rfl
      rw [hwc, insert_command_cons, h1, hout2]
    · intro s hs
      rcases List.mem_cons.mp hs with h | h
      · exact ⟨tail, h, htail⟩
      · exact hprop s h

theorem splitNl_wrap_landscape (tail : List PyStr) (ht : tail ≠ []) :
    ∃ rest, splitNl (wrap_one (joinNl (beginDirective (pyStr "table") :: tail))
        (pyStr "landscape")) =
      beginDirective (pyStr "landscape") :: beginDirective (pyStr "table") :: rest := by
  rw [joinNl_cons _ tail ht, wrap_one_eq,
    splitNl_line_append (beginDirective (pyStr "landscape")) _
      (no_newline_beginDirective _ (by decide)),
    List.append_assoc, List.cons_append,
    splitNl_line_append (beginDirective (pyStr "table")) _
      (no_newline_beginDirective _ (by decide))]
  exact ⟨_, rfl⟩

theorem decorate_tables_center_landscape_eq (lts lt2 : List PyStr)
    (h : insert_command (wrap_table lts (pyStr "table")) (pyStr "\\centering") 0 = .ok lt2) :
    decorate_tables lts true true [] = .ok (wrap_table lt2 (pyStr "landscape")) := by
  show (match insert_command (wrap_table lts (pyStr "table")) (pyStr "\\centering") 0 with
    | .error e => (.error e : Except PyErr (List PyStr))
    | .ok lt3 => apply_midrules (wrap_table lt3 (pyStr "landscape")) [] 0) =
    .ok (wrap_table lt2 (pyStr "landscape"))
  rw [h]
  rfl

/-- Claim C8: with center and landscape both enabled, every decorated block of
the output starts with the landscape container-open line followed by the table
container-open line, so the landscape open appears strictly before the table
open (landscape is the outer container).  The renderer contract hypothesis
says every rendered block contains the top-rule marker as a non-final line. -/
theorem wide_table_nesting (to_latex : List α → PyStr) (t : List α) (W : Int)
    (hW : W ≠ 0)
    (hm : ∀ st : List α, pyStr "\\toprule" ∈ (splitNl (to_latex st)).dropLast) :
    ∃ sts blocks, generate_subtables t W = .ok sts
      ∧ decorate_tables (latex_subtables to_latex sts) true true [] = .ok blocks
      ∧ wide_table to_latex t W true true none = .ok (combine_subtables blocks)
      ∧ ∀ d ∈ blocks, ∃ rest, splitNl d =
          beginDirective (pyStr "landscape") :: beginDirective (pyStr "table") :: rest := by
  obtain ⟨sts, hg⟩ : ∃ sts, generate_subtables t W = .ok sts := by
    unfold generate_subtables
    rw [if_neg hW]
    exact ⟨_, rfl⟩
  obtain ⟨out1, hout1, hprop⟩ := insert_command_wrap_center (latex_subtables to_latex sts)
    (by
      intro b hb
      have hb2 : b ∈ List.map (fun st => to_latex st) sts := hb
      obtain ⟨st, hst2, hbe⟩ := List.mem_map.mp hb2
      rw [← hbe]
      exact hm st)
  have hd := decorate_tables_center_landscape_eq (latex_subtables to_latex sts) out1 hout1
  refine ⟨sts, wrap_table out1 (pyStr "landscape"), hg, hd,
    wide_table_eq to_latex t W sts _ true true none hg hd, ?_⟩
  intro d hd2
  have hd3 : d ∈ List.map (fun lt => wrap_one lt (pyStr "landscape")) out1 := hd2
  obtain ⟨s, hs, hds⟩ := List.mem_map.mp hd3
  obtain ⟨tail, hse, htail⟩ := hprop s hs
  rw [← hds, hse]
  exact splitNl_wrap_landscape tail htail

/-- Witness for claim C8: a 1-column table at width 1 with a renderer that
emits a marker line followed by a body line. -/
theorem wide_table_nesting_witness :
    ∃ sts blocks, generate_subtables ([0] : List Nat) 1 = .ok sts
      ∧ decorate_tables (latex_subtables (fun _ => pyStr "\\toprule\nX\n") sts)
          true true [] = .ok blocks
      ∧ wide_table (fun _ => pyStr "\\toprule\nX\n") [0] 1 true true none =
          .ok (combine_subtables blocks)
      ∧ ∀ d ∈ blocks, ∃ rest, splitNl d =
          beginDirective (pyStr "landscape") :: beginDirective (pyStr "table") :: rest := by
  exact wide_table_nesting (fun _ => pyStr "\\toprule\nX\n") [0] 1 (by decide)
    (by
      intro st
      show pyStr "\\toprule" ∈ (splitNl (pyStr "\\toprule\nX\n")).dropLast
      decide)

end WideTable
